import Mathlib

/-!
Verification development for the `connectors` repository (ECB reference-data
sync).  The Go source is embedded shallowly:

* the carry-forward time-series resolver
  (`stores/ecb/ecbexchangerate/store.go`: `SelectLatestDaily`,
  `SelectLatestDailyRangeMap`) is embedded over lists of `(day, rate)`
  points, with calendar days as integers (the Go code manipulates
  midnight-normalised dates, so date arithmetic is exact whole-day
  arithmetic) and the fetched series passed in as an explicit list
  (the SQL query's filtering/ordering becomes hypotheses on that list);
* Go's built-in `map[string]V` is embedded as an association list with
  insert-or-overwrite assignment (`goMapInsert`) and first-match lookup
  (`goMapLookup`); since every key is bound at most once after building,
  first-match lookup agrees with Go map lookup;
* the snapshot builders (`GetExchangeRatesMap`, `SelectMapByNaturalKey`),
  the inline diff computation of `csyncdb.EcbExchangeRates` /
  `csyncdb.EcbCurrencies`, and the order in which the two orchestrators
  apply deletes / inserts / updates (embedded as an operation trace);
* `float32` rates enter all of these algorithms as opaque payloads that are
  only copied and compared; they are modelled as `Rat`, and the
  `fmt.Sprintf("%.4f", …)` comparison in `Store.Equal` as equality of the
  rate rounded to four decimal places.
-/

namespace Connectors

/-- A time-series point: `(day, value)`, `TimeSeriesPoint` of the spec.
Days are calendar dates encoded as integers (whole-day arithmetic). -/
structure TSPoint where
  day : Int
  rate : Rat
deriving DecidableEq, Repr

/-- `maxDiffDays` from `SelectLatestDaily` / `SelectLatestDailyRangeMap`
(the spec's `StalenessBound`). -/
def maxDiffDays : Int := 5

/-- Failure outcomes of the resolver.  `NotFound` embeds `pgx.ErrNoRows`,
`TooStale` the two staleness errors, `InsufficientCoverage` the
"earliest returned rate is after startDay" error, and `Panic` an
out-of-bounds slice access in the day walk (a Go runtime panic). -/
inductive FillErr
  | NotFound
  | TooStale
  | InsufficientCoverage
  | Panic
deriving DecidableEq, Repr

instance {ε α : Type} [DecidableEq ε] [DecidableEq α] : DecidableEq (Except ε α) :=
  fun a b =>
    match a, b with
    | .error e, .error f =>
        if h : e = f then .isTrue (by rw [h])
        else .isFalse (fun hc => h (Except.error.inj hc))
    | .error _, .ok _ => .isFalse (fun hc => Except.noConfusion hc)
    | .ok _, .error _ => .isFalse (fun hc => Except.noConfusion hc)
    | .ok x, .ok y =>
        if h : x = y then .isTrue (by rw [h])
        else .isFalse (fun hc => h (Except.ok.inj hc))

/-- Embedding of `Store.SelectLatestDaily`.  `series` is the full daily
series for the currency pair sorted descending by day; the SQL
`WHERE day <= $3 ORDER BY day DESC LIMIT 1` returns the first point of
`series` with `day ≤ queryDay`.  Then the staleness check
`diffDays > maxDiffDays` is applied. -/
def SelectLatestDaily (series : List TSPoint) (queryDay : Int) :
    Except FillErr TSPoint :=
  match series.find? (fun p => p.day ≤ queryDay) with
  | none => .error .NotFound
  | some p =>
      if queryDay - p.day > maxDiffDays then .error .TooStale
      else .ok p

/-- The day walk of `SelectLatestDailyRangeMap`, one step per calendar day
from `d` downwards, `n` days in total.  `rem` is `items[activeLatest:]`:
the Go code keeps the full slice plus the cursor `activeLatest`, and only
ever reads `items[activeLatest:]` (the inner exact-match scan),
`items[activeLatest]` (the carry-forward read) and increments the cursor
by one on an exact match; dropping the cursor's prefix is the same state.
A `none` result models the Go runtime panic when `items[activeLatest]`
is read out of bounds. -/
def fillWalk (rem : List TSPoint) : Nat → Int → Option (List (Int × Rat))
  | 0, _ => some []
  | n + 1, d =>
      match rem.find? (fun p => p.day = d) with
      | some p => (fillWalk rem.tail n (d - 1)).map (fun m => (d, p.rate) :: m)
      | none =>
          match rem.head? with
          | none => none
          | some h => (fillWalk rem n (d - 1)).map (fun m => (d, h.rate) :: m)

/-- Embedding of `Store.SelectLatestDailyRangeMap` after the SQL fetch:
`items` is the query result for
`day >= startDay - maxDiffDays AND day <= endDay ORDER BY day DESC`.
The three boundary checks run in source order, then the day walk fills
one entry per day from `endDay` down to `startDay` inclusive
(`(endDay - startDay + 1).toNat` iterations, zero when
`endDay < startDay`). -/
def SelectLatestDailyRangeMap (items : List TSPoint) (startDay endDay : Int) :
    Except FillErr (List (Int × Rat)) :=
  match items with
  | [] => .error .NotFound
  | first :: rest =>
      if endDay - first.day > maxDiffDays then .error .TooStale
      else if startDay < ((first :: rest).getLast (by simp)).day then
        .error .InsufficientCoverage
      else if startDay - ((first :: rest).getLast (by simp)).day > maxDiffDays then
        .error .TooStale
      else
        match fillWalk (first :: rest) (endDay - startDay + 1).toNat endDay with
        | none => .error .Panic
        | some m => .ok m

/-- The series is sorted strictly descending by day (days pairwise distinct). -/
def SortedDesc (l : List TSPoint) : Prop :=
  l.Pairwise (fun a b => b.day < a.day)

instance : DecidablePred SortedDesc := fun l =>
  List.instDecidablePairwise l

/-- The days walked by `fillWalk`: `n` consecutive days descending from `d`. -/
def rangeD : Nat → Int → List Int
  | 0, _ => []
  | n + 1, d => d :: rangeD n (d - 1)

lemma mem_rangeD : ∀ (n : Nat) (d x : Int), x ∈ rangeD n d ↔ d - n < x ∧ x ≤ d := by
  intro n
  induction n with
  | zero => intro d x; simp [rangeD]
  | succ n ih =>
      intro d x
      simp only [rangeD, List.mem_cons, ih (d - 1) x]
      omega

lemma rangeD_nodup : ∀ (n : Nat) (d : Int), (rangeD n d).Nodup := by
  intro n
  induction n with
  | zero => intro d; simp [rangeD]
  | succ n ih =>
      intro d
      simp only [rangeD, List.nodup_cons]
      refine ⟨fun hmem => ?_, ih (d - 1)⟩
      have h := (mem_rangeD n (d - 1) d).mp hmem
      omega

lemma sortedDesc_cons {a : TSPoint} {l : List TSPoint} (h : SortedDesc (a :: l)) :
    (∀ b ∈ l, b.day < a.day) ∧ SortedDesc l :=
  List.pairwise_cons.mp h

/-- On a strictly descending series, `find?` for `day ≤ D` locates the
most recent point not after `D`. -/
lemma find?_le_max {series : List TSPoint} {D : Int} {q : TSPoint}
    (hs : SortedDesc series)
    (hf : series.find? (fun p => p.day ≤ D) = some q) :
    q ∈ series ∧ q.day ≤ D ∧ ∀ r ∈ series, r.day ≤ D → r.day ≤ q.day := by
  induction series with
  | nil => simp [List.find?] at hf
  | cons a l ih =>
      obtain ⟨ha, hl⟩ := sortedDesc_cons hs
      by_cases hd : a.day ≤ D
      · rw [List.find?_cons_of_pos _ (by simpa using hd)] at hf
        injection hf with h
        subst h
        refine ⟨List.mem_cons_self a l, hd, fun r hr _ => ?_⟩
        rcases List.mem_cons.mp hr with h | h
        · exact h ▸ le_refl _
        · exact le_of_lt (ha r h)
      · rw [List.find?_cons_of_neg _ (by simpa using hd)] at hf
        obtain ⟨hq1, hq2, hq3⟩ := ih hl hf
        refine ⟨List.mem_cons_of_mem a hq1, hq2, fun r hr hrD => ?_⟩
        rcases List.mem_cons.mp hr with h | h
        · exact absurd (h ▸ hrD) hd
        · exact hq3 r h hrD

/-- Conversely, the most recent point not after `D` is what `find?` locates. -/
lemma find?_le_of_max {series : List TSPoint} {D : Int} {p : TSPoint}
    (hs : SortedDesc series) (hp : p ∈ series) (hpD : p.day ≤ D)
    (hmax : ∀ r ∈ series, r.day ≤ D → r.day ≤ p.day) :
    series.find? (fun q => q.day ≤ D) = some p := by
  induction series with
  | nil => cases hp
  | cons a l ih =>
      obtain ⟨ha, hl⟩ := sortedDesc_cons hs
      rcases List.mem_cons.mp hp with h | h
      · subst h
        exact List.find?_cons_of_pos _ (by simpa using hpD)
      · have haD : ¬ a.day ≤ D := by
          intro haD
          have h1 : a.day ≤ p.day := hmax a (List.mem_cons_self a l) haD
          have h2 : p.day < a.day := ha p h
          omega
        rw [List.find?_cons_of_neg _ (by simpa using haD)]
        exact ih hl h fun r hr hrD => hmax r (List.mem_cons_of_mem a hr) hrD

/-- C2: on a series sorted descending by day, the point lookup
`SelectLatestDaily` (the spec's `Latest`) fails with `NotFound` exactly when
no point lies on or before the query day; it fails with `TooStale` exactly
when the most recent point on or before the query day is more than
`maxDiffDays` (5) whole days older than the query day; when that point is
within the bound (a gap of exactly 5 included) it is returned; and an exact
point for the query day is returned as is (zero gap). -/
theorem selectLatestDaily_spec (series : List TSPoint) (D : Int)
    (hs : SortedDesc series) :
    (SelectLatestDaily series D = .error .NotFound ↔ ∀ p ∈ series, D < p.day) ∧
    (SelectLatestDaily series D = .error .TooStale ↔
      ∃ p ∈ series, p.day ≤ D ∧ (∀ r ∈ series, r.day ≤ D → r.day ≤ p.day) ∧
        maxDiffDays < D - p.day) ∧
    (∀ p ∈ series, p.day ≤ D → (∀ r ∈ series, r.day ≤ D → r.day ≤ p.day) →
      D - p.day ≤ maxDiffDays → SelectLatestDaily series D = .ok p) ∧
    (∀ p ∈ series, p.day = D → SelectLatestDaily series D = .ok p) := by
  refine ⟨?_, ?_, ?_, ?_⟩
  · constructor
    · intro h p hp
      unfold SelectLatestDaily at h
      cases hf : series.find? (fun q => q.day ≤ D) with
      | none =>
          have := List.find?_eq_none.mp hf p hp
          simp at this
          omega
      | some q =>
          rw [hf] at h
          by_cases hst : D - q.day > maxDiffDays <;> simp [hst] at h
    · intro h
      unfold SelectLatestDaily
      have hf : series.find? (fun q => q.day ≤ D) = none :=
        List.find?_eq_none.mpr fun p hp => by
          have := h p hp; simp; omega
      rw [hf]
  · constructor
    · intro h
      unfold SelectLatestDaily at h
      cases hf : series.find? (fun q => q.day ≤ D) with
      | none => rw [hf] at h; simp at h
      | some q =>
          rw [hf] at h
          obtain ⟨hq1, hq2, hq3⟩ := find?_le_max hs hf
          by_cases hst : D - q.day > maxDiffDays
          · exact ⟨q, hq1, hq2, hq3, by omega⟩
          · simp [hst] at h
    · rintro ⟨p, hp, hpD, hmax, hst⟩
      unfold SelectLatestDaily
      rw [find?_le_of_max hs hp hpD hmax]
      simp only [gt_iff_lt]
      rw [if_pos (by omega)]
  · intro p hp hpD hmax hst
    unfold SelectLatestDaily
    rw [find?_le_of_max hs hp hpD hmax]
    simp only [gt_iff_lt]
    rw [if_neg (by omega)]
  · intro p hp hpD
    have hmax : ∀ r ∈ series, r.day ≤ D → r.day ≤ p.day := fun r _ hrD => by omega
    unfold SelectLatestDaily
    rw [find?_le_of_max hs hp (by omega) hmax]
    simp only [gt_iff_lt]
    rw [if_neg (by simp [maxDiffDays]; omega)]

/-- Witness for C2 at the spec's worked example: series
`[(day 3, 1.10), (day -2, 1.05)]` queried at day 1. -/
theorem selectLatestDaily_spec_witness :
    (SelectLatestDaily [⟨3, 11/10⟩, ⟨-2, 21/20⟩] 1 = .error .NotFound ↔
      ∀ p ∈ [(⟨3, 11/10⟩ : TSPoint), ⟨-2, 21/20⟩], (1 : Int) < p.day) ∧
    (SelectLatestDaily [⟨3, 11/10⟩, ⟨-2, 21/20⟩] 1 = .error .TooStale ↔
      ∃ p ∈ [(⟨3, 11/10⟩ : TSPoint), ⟨-2, 21/20⟩], p.day ≤ 1 ∧
        (∀ r ∈ [(⟨3, 11/10⟩ : TSPoint), ⟨-2, 21/20⟩], r.day ≤ 1 → r.day ≤ p.day) ∧
        maxDiffDays < 1 - p.day) ∧
    (∀ p ∈ [(⟨3, 11/10⟩ : TSPoint), ⟨-2, 21/20⟩], p.day ≤ 1 →
      (∀ r ∈ [(⟨3, 11/10⟩ : TSPoint), ⟨-2, 21/20⟩], r.day ≤ 1 → r.day ≤ p.day) →
      1 - p.day ≤ maxDiffDays →
      SelectLatestDaily [⟨3, 11/10⟩, ⟨-2, 21/20⟩] 1 = .ok p) ∧
    (∀ p ∈ [(⟨3, 11/10⟩ : TSPoint), ⟨-2, 21/20⟩], p.day = 1 →
      SelectLatestDaily [⟨3, 11/10⟩, ⟨-2, 21/20⟩] 1 = .ok p) :=
  selectLatestDaily_spec [⟨3, 11/10⟩, ⟨-2, 21/20⟩] 1 (by decide)

/-- The day walk terminates with a map (never hits the out-of-bounds read)
whenever the remaining slice is sorted strictly descending and still holds a
point on or before the lowest day left to walk. -/
lemma fillWalk_isSome :
    ∀ (n : Nat) (d : Int) (rem : List TSPoint),
      SortedDesc rem →
      (n ≠ 0 → ∃ p ∈ rem, p.day ≤ d - n + 1) →
      ∃ m, fillWalk rem n d = some m := by
  intro n
  induction n with
  | zero => intro d rem _ _; exact ⟨[], rfl⟩
  | succ n ih =>
      intro d rem hs hex
      obtain ⟨p, hp, hpd⟩ := hex (Nat.succ_ne_zero n)
      cases rem with
      | nil => cases hp
      | cons h t =>
          obtain ⟨hh, ht⟩ := sortedDesc_cons hs
          cases hf : (h :: t).find? (fun q => q.day = d) with
          | some q =>
              have hq : q.day = d := by simpa using List.find?_some hf
              have hqle : q.day ≤ h.day := by
                rcases List.mem_cons.mp (List.mem_of_find?_eq_some hf) with rfl | hqt
                · exact le_refl _
                · exact le_of_lt (hh q hqt)
              have hex' : n ≠ 0 → ∃ p' ∈ t, p'.day ≤ (d - 1) - n + 1 := by
                intro hn
                rcases List.mem_cons.mp hp with rfl | hpt
                · exfalso; push_cast at hpd; omega
                · exact ⟨p, hpt, by push_cast at hpd ⊢; omega⟩
              obtain ⟨m, hm⟩ := ih (d - 1) t ht hex'
              exact ⟨(d, q.rate) :: m, by simp [fillWalk, hf, hm]⟩
          | none =>
              have hex' : n ≠ 0 → ∃ p' ∈ h :: t, p'.day ≤ (d - 1) - n + 1 :=
                fun _ => ⟨p, hp, by push_cast at hpd ⊢; omega⟩
              obtain ⟨m, hm⟩ := ih (d - 1) (h :: t) hs hex'
              exact ⟨(d, h.rate) :: m, by simp [fillWalk, hf, hm]⟩

/-- The per-entry value property claimed for the range map: an output pair
`(day, r)` either carries an exact observation's value for that day, or —
when the series has no observation for that day — the value of the most
recent observation strictly before it. -/
def goodEntry (items : List TSPoint) (e : Int × Rat) : Prop :=
  (∃ p ∈ items, p.day = e.1 ∧ e.2 = p.rate) ∨
  ((∀ p ∈ items, p.day ≠ e.1) ∧
    ∃ p ∈ items, p.day < e.1 ∧ e.2 = p.rate ∧
      ∀ q ∈ items, q.day < e.1 → q.day ≤ p.day)

/-- Correctness of the day walk: starting from a split `items = pre ++ rem`
where the walked-past prefix `pre` holds exactly the points above the current
day `d` and `rem` the points at or below it, the walk emits one entry for
each of the `n` days from `d` downwards, each satisfying `goodEntry`. -/
lemma fillWalk_correct (items : List TSPoint) (hs : SortedDesc items) :
    ∀ (n : Nat) (d : Int) (pre rem : List TSPoint),
      items = pre ++ rem →
      (∀ p ∈ pre, d < p.day) →
      (∀ p ∈ rem, p.day ≤ d) →
      (n ≠ 0 → ∃ p ∈ rem, p.day ≤ d - n + 1) →
      ∃ m, fillWalk rem n d = some m ∧ m.map Prod.fst = rangeD n d ∧
        ∀ e ∈ m, goodEntry items e := by
  intro n
  induction n with
  | zero => intro d pre rem _ _ _ _; exact ⟨[], rfl, rfl, by simp⟩
  | succ n ih =>
      intro d pre rem hsplit hpre hrem hex
      obtain ⟨p, hp, hpd⟩ := hex (Nat.succ_ne_zero n)
      cases rem with
      | nil => cases hp
      | cons h t =>
          have hsrem : SortedDesc (h :: t) := by
            rw [hsplit] at hs
            exact hs.sublist (List.sublist_append_right pre (h :: t))
          obtain ⟨hh, ht⟩ := sortedDesc_cons hsrem
          have hhd : h.day ≤ d := hrem h (List.mem_cons_self h t)
          have hhmem : h ∈ items := by
            rw [hsplit]; exact List.mem_append.mpr (Or.inr (List.mem_cons_self h t))
          by_cases hexact : h.day = d
          · have hf : (h :: t).find? (fun q => q.day = d) = some h :=
              List.find?_cons_of_pos _ (by simpa using hexact)
            have hex' : n ≠ 0 → ∃ p' ∈ t, p'.day ≤ (d - 1) - n + 1 := by
              intro hn
              rcases List.mem_cons.mp hp with rfl | hpt
              · exfalso; push_cast at hpd; omega
              · exact ⟨p, hpt, by push_cast at hpd ⊢; omega⟩
            have hpre' : ∀ p' ∈ pre ++ [h], d - 1 < p'.day := by
              intro p' hp'
              rcases List.mem_append.mp hp' with h1 | h1
              · have := hpre p' h1; omega
              · have : p' = h := by simpa using h1
                subst this; omega
            have hrem' : ∀ p' ∈ t, p'.day ≤ d - 1 := fun p' hp' => by
              have := hh p' hp'; omega
            obtain ⟨m, hm, hkeys, hgood⟩ :=
              ih (d - 1) (pre ++ [h]) t (by rw [hsplit]; simp) hpre' hrem' hex'
            refine ⟨(d, h.rate) :: m, by simp [fillWalk, hf, hm],
              by simp [rangeD, hkeys], ?_⟩
            intro e he
            rcases List.mem_cons.mp he with rfl | he'
            · exact Or.inl ⟨h, hhmem, hexact, rfl⟩
            · exact hgood e he'
          · have hlt : h.day < d := lt_of_le_of_ne hhd hexact
            have hf : (h :: t).find? (fun q => q.day = d) = none := by
              apply List.find?_eq_none.mpr
              intro q hq
              rcases List.mem_cons.mp hq with rfl | hqt
              · simpa using hexact
              · have := hh q hqt; simp; omega
            have hex' : n ≠ 0 → ∃ p' ∈ h :: t, p'.day ≤ (d - 1) - n + 1 :=
              fun _ => ⟨p, hp, by push_cast at hpd ⊢; omega⟩
            have hrem' : ∀ p' ∈ h :: t, p'.day ≤ d - 1 := by
              intro p' hp'
              rcases List.mem_cons.mp hp' with rfl | h1
              · omega
              · have := hh p' h1; omega
            have hpre' : ∀ p' ∈ pre, d - 1 < p'.day := fun p' hp' => by
              have := hpre p' hp'; omega
            obtain ⟨m, hm, hkeys, hgood⟩ :=
              ih (d - 1) pre (h :: t) hsplit hpre' hrem' hex'
            refine ⟨(d, h.rate) :: m, by simp [fillWalk, hf, hm],
              by simp [rangeD, hkeys], ?_⟩
            intro e he
            rcases List.mem_cons.mp he with rfl | he'
            · refine Or.inr ⟨?_, h, hhmem, hlt, rfl, ?_⟩
              · intro q hq
                rw [hsplit] at hq
                rcases List.mem_append.mp hq with h1 | h1
                · have := hpre q h1; simp; omega
                · have := hrem' q h1; simp; omega
              · intro q hq hqd
                rw [hsplit] at hq
                rcases List.mem_append.mp hq with h1 | h1
                · exfalso; have := hpre q h1; simp at hqd; omega
                · rcases List.mem_cons.mp h1 with rfl | h2
                  · exact le_refl _
                  · exact le_of_lt (hh q h2)
            · exact hgood e he'

/-- C9: when the fetched series is sorted strictly descending by day and the
three boundary checks pass (latest point within `maxDiffDays` of `endDay`,
earliest point not after `startDay`, earliest point within `maxDiffDays` of
`startDay`), the day walk's carry-forward read is always in bounds: the call
returns a range map and in particular never panics. -/
theorem selectLatestDailyRangeMap_no_panic (items : List TSPoint)
    (startDay endDay : Int) (hs : SortedDesc items) (hne : items ≠ [])
    (hend : endDay - (items.head hne).day ≤ maxDiffDays)
    (hcov : (items.getLast hne).day ≤ startDay)
    (hstart : startDay - (items.getLast hne).day ≤ maxDiffDays) :
    ∃ m, SelectLatestDailyRangeMap items startDay endDay = .ok m := by
  cases items with
  | nil => exact absurd rfl hne
  | cons first rest =>
      simp only [List.head_cons] at hend
      have hlastp : ((first :: rest).getLast (by simp)) = (first :: rest).getLast hne := rfl
      obtain ⟨m, hm⟩ :=
        fillWalk_isSome (endDay - startDay + 1).toNat endDay (first :: rest) hs
          (fun hn => ⟨(first :: rest).getLast hne, List.getLast_mem hne, by omega⟩)
      refine ⟨m, ?_⟩
      simp only [SelectLatestDailyRangeMap]
      rw [if_neg (not_lt.mpr hend), if_neg (not_lt.mpr (hlastp ▸ hcov)),
        if_neg (not_lt.mpr (by rw [hlastp]; omega)), hm]

/-- Witness for C9: a sparse two-point series over `[0, 5]`. -/
theorem selectLatestDailyRangeMap_no_panic_witness :
    ∃ m, SelectLatestDailyRangeMap [⟨4, 14⟩, ⟨0, 10⟩] 0 5 = .ok m :=
  selectLatestDailyRangeMap_no_panic [⟨4, 14⟩, ⟨0, 10⟩] 0 5 (by decide)
    (by decide) (by decide) (by decide) (by decide)

/-- C1: for a series sorted strictly descending by day whose points all lie
on or before `endDay` (the fetch filters `day <= endDay`), if the three
boundary checks pass then `SelectLatestDailyRangeMap` returns a map with
exactly one entry per calendar day in `[startDay, endDay]`, each entry
carrying the exact observation's value for its day or, failing that, the
value of the most recent observation strictly before it. -/
theorem selectLatestDailyRangeMap_fills_range (items : List TSPoint)
    (startDay endDay : Int) (hs : SortedDesc items) (hne : items ≠ [])
    (hbound : ∀ p ∈ items, p.day ≤ endDay) (hse : startDay ≤ endDay)
    (hend : endDay - (items.head hne).day ≤ maxDiffDays)
    (hcov : (items.getLast hne).day ≤ startDay)
    (hstart : startDay - (items.getLast hne).day ≤ maxDiffDays) :
    ∃ m, SelectLatestDailyRangeMap items startDay endDay = .ok m ∧
      (∀ d, d ∈ m.map Prod.fst ↔ startDay ≤ d ∧ d ≤ endDay) ∧
      (m.map Prod.fst).Nodup ∧
      ∀ e ∈ m, goodEntry items e := by
  cases items with
  | nil => exact absurd rfl hne
  | cons first rest =>
      simp only [List.head_cons] at hend
      have hlastp : ((first :: rest).getLast (by simp)) = (first :: rest).getLast hne := rfl
      have hcast : (((endDay - startDay + 1).toNat : Int)) = endDay - startDay + 1 :=
        Int.toNat_of_nonneg (by omega)
      obtain ⟨m, hm, hkeys, hgood⟩ :=
        fillWalk_correct (first :: rest) hs (endDay - startDay + 1).toNat endDay
          [] (first :: rest) rfl (by simp) hbound
          (fun hn => ⟨(first :: rest).getLast hne, List.getLast_mem hne, by omega⟩)
      refine ⟨m, ?_, ?_, ?_, hgood⟩
      · simp only [SelectLatestDailyRangeMap]
        rw [if_neg (not_lt.mpr hend), if_neg (not_lt.mpr (hlastp ▸ hcov)),
          if_neg (not_lt.mpr (by rw [hlastp]; omega)), hm]
      · intro d
        rw [hkeys, mem_rangeD]
        omega
      · rw [hkeys]; exact rangeD_nodup _ _

/-- Witness for C1: the spec's business-week example — a Monday-to-Friday
series (days 0–4) filled over the calendar week `[0, 6]` yields exactly 7
entries, the weekend days 5 and 6 carrying Friday's value 14. -/
theorem selectLatestDailyRangeMap_fills_range_witness :
    SelectLatestDailyRangeMap [⟨4, 14⟩, ⟨3, 13⟩, ⟨2, 12⟩, ⟨1, 11⟩, ⟨0, 10⟩] 0 6 =
      .ok [(6, 14), (5, 14), (4, 14), (3, 13), (2, 12), (1, 11), (0, 10)] ∧
    ∃ m, SelectLatestDailyRangeMap [⟨4, 14⟩, ⟨3, 13⟩, ⟨2, 12⟩, ⟨1, 11⟩, ⟨0, 10⟩] 0 6 =
        .ok m ∧
      (∀ d, d ∈ m.map Prod.fst ↔ 0 ≤ d ∧ d ≤ 6) ∧
      (m.map Prod.fst).Nodup ∧
      ∀ e ∈ m, goodEntry [⟨4, 14⟩, ⟨3, 13⟩, ⟨2, 12⟩, ⟨1, 11⟩, ⟨0, 10⟩] e :=
  ⟨by decide,
    selectLatestDailyRangeMap_fills_range
      [⟨4, 14⟩, ⟨3, 13⟩, ⟨2, 12⟩, ⟨1, 11⟩, ⟨0, 10⟩] 0 6 (by decide) (by decide)
      (by decide) (by decide) (by decide) (by decide) (by decide)⟩

/-- C3 (amended): the boundary checks of `SelectLatestDailyRangeMap` run in
source order — empty series → `NotFound`; `endDay` more than 5 whole days
after the latest point → `TooStale`; otherwise `startDay` strictly before the
earliest point → `InsufficientCoverage`; otherwise `startDay` more than 5
whole days after the earliest point → `TooStale`; boundary gaps of exactly 5
days pass all checks (no check error is returned). -/
theorem selectLatestDailyRangeMap_boundary_errors (items : List TSPoint)
    (s e : Int) :
    (items = [] → SelectLatestDailyRangeMap items s e = .error .NotFound) ∧
    (∀ f l, items.head? = some f → items.getLast? = some l →
      (maxDiffDays < e - f.day →
        SelectLatestDailyRangeMap items s e = .error .TooStale) ∧
      (maxDiffDays < s - l.day →
        SelectLatestDailyRangeMap items s e = .error .TooStale) ∧
      (e - f.day ≤ maxDiffDays → s < l.day →
        SelectLatestDailyRangeMap items s e = .error .InsufficientCoverage) ∧
      (e - f.day ≤ maxDiffDays → l.day ≤ s → s - l.day ≤ maxDiffDays →
        SelectLatestDailyRangeMap items s e ≠ .error .NotFound ∧
        SelectLatestDailyRangeMap items s e ≠ .error .TooStale ∧
        SelectLatestDailyRangeMap items s e ≠ .error .InsufficientCoverage)) := by
  cases items with
  | nil =>
      refine ⟨fun _ => rfl, fun f l hf hl => ?_⟩
      simp at hf
  | cons first rest =>
      refine ⟨fun h => (by cases h), fun f l hf hl => ?_⟩
      simp only [List.head?_cons, Option.some.injEq] at hf
      subst hf
      rw [List.getLast?_eq_getLast _ (by simp), Option.some.injEq] at hl
      subst hl
      have hmd : maxDiffDays = 5 := rfl
      refine ⟨fun h1 => ?_, fun h2 => ?_, fun h1 h2 => ?_, fun h1 h2 h3 => ?_⟩
      · simp only [SelectLatestDailyRangeMap]
        rw [if_pos h1]
      · simp only [SelectLatestDailyRangeMap]
        by_cases hc : maxDiffDays < e - first.day
        · rw [if_pos hc]
        · rw [if_neg hc, if_neg (by omega), if_pos h2]
      · simp only [SelectLatestDailyRangeMap]
        rw [if_neg (not_lt.mpr h1), if_pos h2]
      · simp only [SelectLatestDailyRangeMap]
        rw [if_neg (not_lt.mpr h1), if_neg (not_lt.mpr h2), if_neg (not_lt.mpr h3)]
        split <;> simp

/-- Witness for C3: a one-point series `[(day 0, 1)]` queried for
`[-1, 4]` — the query start predates all data, `InsufficientCoverage`. -/
theorem selectLatestDailyRangeMap_boundary_errors_witness :
    SelectLatestDailyRangeMap [⟨0, 1⟩] (-1) 4 = .error .InsufficientCoverage :=
  ((selectLatestDailyRangeMap_boundary_errors [⟨0, 1⟩] (-1) 4).2 ⟨0, 1⟩ ⟨0, 1⟩
    rfl rfl).2.2.1 (by decide) (by decide)

/-- Counterexample for C3 as stated: with the one-point series `[(day 0, 1)]`
over `[-1, 6]`, `startDay = -1` is strictly before the earliest point's day 0,
yet the call fails with `TooStale` (the `endDay` staleness check fires first),
not `InsufficientCoverage`. -/
theorem selectLatestDailyRangeMap_priority_counterexample :
    (-1 : Int) < (0 : Int) ∧
    SelectLatestDailyRangeMap [⟨0, 1⟩] (-1) 6 = .error .TooStale ∧
    SelectLatestDailyRangeMap [⟨0, 1⟩] (-1) 6 ≠ .error .InsufficientCoverage := by
  decide

/-! ## Go maps, snapshots and the diff computation

Go's `map[string]V` is embedded as an association list in insertion order;
assignment `m[k] = v` overwrites an existing binding for `k` in place or
appends a new one, exactly the observable Go semantics (Go's iteration order
is unspecified; insertion order is the determinization used here). -/

/-- Go map assignment `m[k] = v`. -/
def goMapInsert {V : Type} : List (String × V) → String → V → List (String × V)
  | [], k, v => [(k, v)]
  | e :: m, k, v => if e.1 = k then (k, v) :: m else e :: goMapInsert m k v

/-- Go map lookup `m[k]` (`none` models `ok == false`). -/
def goMapLookup {V : Type} (m : List (String × V)) (k : String) : Option V :=
  (m.find? (fun e => e.1 = k)).map (fun e => e.2)

/-- The key set of a Go map (as a list). -/
def goMapKeys {V : Type} (m : List (String × V)) : List String :=
  m.map Prod.fst

lemma find?_key_cons_pos {V : Type} (e : String × V) (m : List (String × V))
    (k : String) (h : e.1 = k) :
    (e :: m).find? (fun x => x.1 = k) = some e :=
  List.find?_cons_of_pos _ (by simpa using h)

lemma find?_key_cons_neg {V : Type} (e : String × V) (m : List (String × V))
    (k : String) (h : ¬ e.1 = k) :
    (e :: m).find? (fun x => x.1 = k) = m.find? (fun x => x.1 = k) :=
  List.find?_cons_of_neg _ (by simpa using h)

lemma goMapLookup_insert {V : Type} :
    ∀ (m : List (String × V)) (k : String) (v : V) (k' : String),
      goMapLookup (goMapInsert m k v) k' =
        if k = k' then some v else goMapLookup m k' := by
  intro m
  induction m with
  | nil =>
      intro k v k'
      simp only [goMapInsert, goMapLookup]
      by_cases h : k = k'
      · subst h
        rw [find?_key_cons_pos (k, v) [] k rfl, if_pos rfl]
        rfl
      · rw [find?_key_cons_neg (k, v) [] k' h, if_neg h]
  | cons e m ih =>
      intro k v k'
      simp only [goMapInsert]
      by_cases he : e.1 = k
      · rw [if_pos he]
        simp only [goMapLookup]
        by_cases h : k = k'
        · subst h
          rw [find?_key_cons_pos (k, v) m k rfl, if_pos rfl]
          rfl
        · rw [find?_key_cons_neg (k, v) m k' h, if_neg h,
            find?_key_cons_neg e m k' (fun hc => h (he.symm.trans hc))]
      · rw [if_neg he]
        simp only [goMapLookup] at ih ⊢
        by_cases hek : e.1 = k'
        · rw [find?_key_cons_pos e (goMapInsert m k v) k' hek,
            find?_key_cons_pos e m k' hek,
            if_neg (fun hc => he (hek.trans hc.symm))]
        · rw [find?_key_cons_neg e (goMapInsert m k v) k' hek,
            find?_key_cons_neg e m k' hek]
          exact ih k v k'

lemma goMapLookup_eq_some_of_mem {V : Type} {m : List (String × V)} {k : String}
    {v : V} (hnd : (goMapKeys m).Nodup) (hmem : (k, v) ∈ m) :
    goMapLookup m k = some v := by
  induction m with
  | nil => cases hmem
  | cons e m ih =>
      simp only [goMapKeys, List.map_cons, List.nodup_cons] at hnd
      rcases List.mem_cons.mp hmem with rfl | h1
      · simp only [goMapLookup, find?_key_cons_pos (k, v) m k rfl, Option.map_some']
      · have hne : ¬ e.1 = k := by
          intro hc
          exact hnd.1 (hc ▸ (List.mem_map.mpr ⟨(k, v), h1, rfl⟩))
        simp only [goMapLookup, find?_key_cons_neg e m k hne]
        exact ih hnd.2 h1

lemma mem_of_goMapLookup_eq_some {V : Type} {m : List (String × V)} {k : String}
    {v : V} (h : goMapLookup m k = some v) : (k, v) ∈ m := by
  simp only [goMapLookup, Option.map_eq_some'] at h
  obtain ⟨e, he, hv⟩ := h
  have h1 := List.mem_of_find?_eq_some he
  have h2 : e.1 = k := by simpa using List.find?_some he
  have : e = (k, v) := by
    cases e; simp at h2 hv; simp [h2, hv]
  exact this ▸ h1

lemma goMapLookup_isSome_iff {V : Type} {m : List (String × V)} {k : String} :
    (goMapLookup m k).isSome ↔ k ∈ goMapKeys m := by
  constructor
  · intro h
    obtain ⟨v, hv⟩ := Option.isSome_iff_exists.mp h
    exact List.mem_map.mpr ⟨(k, v), mem_of_goMapLookup_eq_some hv, rfl⟩
  · intro h
    obtain ⟨e, he, hk⟩ := List.mem_map.mp h
    simp only [goMapLookup]
    cases hf : m.find? (fun x => x.1 = k) with
    | some x => simp
    | none =>
        exfalso
        exact absurd (by simpa using List.find?_eq_none.mp hf e he) (by simp [hk])

lemma goMapLookup_eq_none_iff {V : Type} {m : List (String × V)} {k : String} :
    goMapLookup m k = none ↔ k ∉ goMapKeys m := by
  rw [← goMapLookup_isSome_iff, ← Option.not_isSome_iff_eq_none]

/-! ## Entities

`ecbexchangerate.Input` / `Model` and `ecbcurrency.Input` / `Model`.
The Go `Model` embeds `Input` plus the store identity and audit/view fields;
both snapshot builders rebuild records as `Model{Id: …, Input: …}`, zeroing
the view-only fields, so the embedded model carries exactly identity plus
input.  `float32` rates are modelled as `Rat`; currency `LastModifiedAt`
(an audit timestamp assigned inside `Update`, never compared) is omitted. -/

structure ExRateInput where
  day : Int
  frequency : String
  fromCurrencyFk : Int
  rate : Rat
  toCurrencyFk : Int
deriving DecidableEq, Repr

structure ExRateModel where
  id : Int
  input : ExRateInput
deriving DecidableEq, Repr

structure CurrInput where
  code : String
  name : String
deriving DecidableEq, Repr

structure CurrModel where
  id : Int
  input : CurrInput
deriving DecidableEq, Repr

/-- The natural key of an exchange-rate record:
`Day.Format(DateFormat) + "+" + fmt.Sprintf("%v", ToCurrencyFk)`.
Both formattings are injective renderings of the underlying values. -/
def exRateKey (i : ExRateInput) : String :=
  toString i.day ++ "+" ++ toString i.toCurrencyFk

/-- `ecbexchangerate.Store.Equal`: `fmt.Sprintf("%.4f", a.Rate) ==
fmt.Sprintf("%.4f", b.Rate)` — the rates compared after rounding to four
decimal places, modelled as equality of `round (rate * 10000)`. -/
def Equal (a b : ExRateModel) : Bool :=
  round (a.input.rate * 10000) = round (b.input.rate * 10000)

/-- `ecbcurrency.Store.Equal`: `a.Name == b.Name`. -/
def CurrEqual (a b : CurrModel) : Bool :=
  a.input.name = b.input.name

/-- `ecbapi.Client.GetExchangeRatesMap` after the fetch/convert stage:
builds the source snapshot keyed by `day+toCurrFk`; each record is
`Model{Input: input}` (store identity zero). -/
def GetExchangeRatesMap (inputs : List ExRateInput) : List (String × ExRateModel) :=
  inputs.foldl (fun m inp => goMapInsert m (exRateKey inp) ⟨0, inp⟩) []

/-- `ecbexchangerate.Store.SelectMapByNaturalKey` after the select: builds
the store snapshot keyed by `day+toCurrFk`; each record is
`Model{Id: dbItem.Id, Input: dbItem.Input}`. -/
def SelectMapByNaturalKey (items : List ExRateModel) : List (String × ExRateModel) :=
  items.foldl (fun m it => goMapInsert m (exRateKey it.input) it) []

/-! ## The diff computation of `csyncdb.EcbExchangeRates`

The Go function makes one pass over the source map (collecting `newItems`
when the key is absent from the store map and `updatedItems` when present
but `!Equal`) and one pass over the store map (collecting `deletedItems`
when the key is absent from the source map).  The single source pass is
split below into two traversals with identical contents and order. -/

section Diff

variable {α : Type}

/-- Records to insert: source entries whose key is absent from the store. -/
def toInsert (src store : List (String × α)) : List (String × α) :=
  src.filter (fun e => (goMapLookup store e.1).isNone)

/-- Records to update: source entries whose key is in the store with an
unequal value; carries `(key, sourceRecord, storeRecord)`. -/
def toUpdate (equal : α → α → Bool) (src store : List (String × α)) :
    List (String × α × α) :=
  src.filterMap (fun e =>
    match goMapLookup store e.1 with
    | none => none
    | some d => if equal e.2 d then none else some (e.1, e.2, d))

/-- Records to delete: store entries whose key is absent from the source. -/
def toDelete (src store : List (String × α)) : List (String × α) :=
  store.filter (fun e => (goMapLookup src e.1).isNone)

/-- Keys present in both snapshots with equal values (the no-action case;
not materialised by the Go code, defined here to state the partition). -/
def unchangedKeys (equal : α → α → Bool) (src store : List (String × α)) :
    List String :=
  src.filterMap (fun e =>
    match goMapLookup store e.1 with
    | none => none
    | some d => if equal e.2 d then some e.1 else none)

end Diff

/-! ## Operation traces of the two sync orchestrators -/

inductive ExOp
  | del (id : Int)
  | ins (inp : ExRateInput)
  | upd (id : Int) (inp : ExRateInput)
deriving DecidableEq, Repr

inductive CurrOp
  | del (id : Int)
  | ins (inp : CurrInput)
  | upd (id : Int) (inp : CurrInput)
deriving DecidableEq, Repr

/-- Phase rank: deletes before inserts before updates. -/
def exOpRank : ExOp → Nat
  | .del _ => 0
  | .ins _ => 1
  | .upd _ _ => 2

def currOpRank : CurrOp → Nat
  | .del _ => 0
  | .ins _ => 1
  | .upd _ _ => 2

/-- The store operations applied by `csyncdb.EcbExchangeRates`, in order:
all deletes (`itemStore.Delete` per record), then the bulk insert (embedded
per record in slice order), then all updates (`itemStore.Update` with the
DB id and the API input). -/
def EcbExchangeRatesTrace (apiMap dbMap : List (String × ExRateModel)) :
    List ExOp :=
  ((toDelete apiMap dbMap).map fun e => .del e.2.id) ++
  ((toInsert apiMap dbMap).map fun e => .ins e.2.input) ++
  ((toUpdate Equal apiMap dbMap).map fun e => .upd e.2.2.id e.2.1.input)

/-- The store operations applied by `csyncdb.EcbCurrencies`, in order: one
pass over the API map applying inserts and updates inline as each key is
examined, then one pass over the DB map applying deletes. -/
def EcbCurrenciesTrace (apiMap dbMap : List (String × CurrModel)) :
    List CurrOp :=
  (apiMap.filterMap fun e =>
    match goMapLookup dbMap e.1 with
    | none => some (.ins e.2.input)
    | some d => if CurrEqual e.2 d then none else some (.upd d.id e.2.input)) ++
  (dbMap.filterMap fun e =>
    match goMapLookup apiMap e.1 with
    | some _ => none
    | none => some (.del e.2.id))

/-- Failure modes of an `EcbExchangeRates` run before any store mutation. -/
inductive RunErr
  | noCurrencies
  | fetchFailed
  | dbSelectFailed
deriving DecidableEq, Repr

/-- `csyncdb.EcbExchangeRates` as a whole run: the currency code→id map has
already been selected; if it is empty the run aborts with
`"no currencies found: pls sync currencies first"` before calling
`GetExchangeRatesMap` (the source fetch, abstracted as the function
argument `fetch`) or `SelectMapByNaturalKey` (abstracted as `dbSel`); on
success it yields the operation trace. -/
def EcbExchangeRates (currMap : List (String × Int))
    (fetch : List (String × Int) → Except RunErr (List (String × ExRateModel)))
    (dbSel : Except RunErr (List (String × ExRateModel))) :
    Except RunErr (List ExOp) :=
  if currMap.length = 0 then .error .noCurrencies
  else
    match fetch currMap with
    | .error e => .error e
    | .ok apiMap =>
        match dbSel with
        | .error e => .error e
        | .ok dbMap => .ok (EcbExchangeRatesTrace apiMap dbMap)

/-- C10: with an empty currency code→id map, `EcbExchangeRates` fails with
the `no currencies found` error whatever the source fetch or the store
select would have returned — neither is consulted — and the run carries no
insert, update or delete. -/
theorem ecbExchangeRates_requires_currencies
    (fetch : List (String × Int) → Except RunErr (List (String × ExRateModel)))
    (dbSel : Except RunErr (List (String × ExRateModel))) :
    EcbExchangeRates [] fetch dbSel = .error .noCurrencies := rfl

/-- Lookup after building a map by repeated Go assignment returns the value
of the last element written for the key. -/
lemma goMapLookup_foldl_insert {β V : Type} (key : β → String) (val : β → V) :
    ∀ (l : List β) (m : List (String × V)) (k : String),
      goMapLookup (l.foldl (fun acc b => goMapInsert acc (key b) (val b)) m) k =
        match l.reverse.find? (fun b => key b = k) with
        | some b => some (val b)
        | none => goMapLookup m k := by
  intro l
  induction l with
  | nil => intro m k; rfl
  | cons b l ih =>
      intro m k
      simp only [List.foldl_cons, List.reverse_cons]
      rw [ih, List.find?_append]
      cases hf : l.reverse.find? (fun x => key x = k) with
      | some c => rfl
      | none =>
          simp only [Option.or]
          by_cases hb : key b = k
          · rw [List.find?_cons_of_pos _ (by simpa using hb),
              goMapLookup_insert, if_pos hb]
          · rw [List.find?_cons_of_neg _ (by simpa using hb),
              goMapLookup_insert, if_neg hb]
            rfl

/-- C4 (amended): the snapshot builders detect no key collision — on a
collision they silently keep the last record written for the key: each
key's binding is the image of the last input (respectively last selected
row) whose natural key matches it. -/
theorem snapshotBuilders_last_write_wins (inputs : List ExRateInput)
    (items : List ExRateModel) (k : String) :
    goMapLookup (GetExchangeRatesMap inputs) k =
      (inputs.reverse.find? (fun i => exRateKey i = k)).map
        (fun i => (⟨0, i⟩ : ExRateModel)) ∧
    goMapLookup (SelectMapByNaturalKey items) k =
      items.reverse.find? (fun it => exRateKey it.input = k) := by
  constructor
  · rw [GetExchangeRatesMap,
      goMapLookup_foldl_insert exRateKey (fun i => (⟨0, i⟩ : ExRateModel)) inputs [] k]
    cases inputs.reverse.find? (fun i => exRateKey i = k) <;> rfl
  · rw [SelectMapByNaturalKey,
      goMapLookup_foldl_insert (fun it => exRateKey it.input) (fun it => it) items [] k]
    cases hf : items.reverse.find? (fun it => exRateKey it.input = k) <;> rfl

/-- Counterexample for C4 as stated: two distinct records with the same
natural key `0+2` (same day 0 and target currency 2, different rates); both
builders return an ordinary one-entry map holding the later record — no
error of any kind is raised. -/
theorem snapshotBuilders_collision_counterexample :
    (⟨0, "D", 1, 1, 2⟩ : ExRateInput) ≠ ⟨0, "D", 1, 2, 2⟩ ∧
    exRateKey ⟨0, "D", 1, 1, 2⟩ = exRateKey ⟨0, "D", 1, 2, 2⟩ ∧
    GetExchangeRatesMap [⟨0, "D", 1, 1, 2⟩, ⟨0, "D", 1, 2, 2⟩] =
      [("0+2", ⟨0, ⟨0, "D", 1, 2, 2⟩⟩)] ∧
    SelectMapByNaturalKey [⟨5, ⟨0, "D", 1, 1, 2⟩⟩, ⟨6, ⟨0, "D", 1, 2, 2⟩⟩] =
      [("0+2", ⟨6, ⟨0, "D", 1, 2, 2⟩⟩)] := by
  refine ⟨by decide, rfl, rfl, rfl⟩

lemma pairwise_le_of_const_rank {β : Type} (f : β → Nat) (l : List β) (c : Nat)
    (h : ∀ o ∈ l, f o = c) : l.Pairwise (fun a b => f a ≤ f b) :=
  List.pairwise_of_forall_mem_list fun a ha b hb => by
    rw [h a ha, h b hb]

/-- C5 (amended): `EcbExchangeRates` applies all deletes, then all inserts,
then all updates (phase ranks del=0 < ins=1 < upd=2 are monotone along its
trace); `EcbCurrencies` instead applies inserts and updates inline while
walking the source snapshot and only afterwards applies all deletes. -/
theorem syncOrchestrators_phase_order (apiE dbE : List (String × ExRateModel))
    (apiC dbC : List (String × CurrModel)) :
    ((EcbExchangeRatesTrace apiE dbE).map exOpRank).Pairwise (fun a b => a ≤ b) ∧
    ∃ iu ds, EcbCurrenciesTrace apiC dbC = iu ++ ds ∧
      (∀ o ∈ iu, ∀ i : Int, o ≠ CurrOp.del i) ∧
      (∀ o ∈ ds, ∃ i : Int, o = CurrOp.del i) := by
  constructor
  · have hd : ∀ o ∈ (toDelete apiE dbE).map (fun e => ExOp.del e.2.id),
        exOpRank o = 0 := by
      intro o ho
      obtain ⟨e, _, rfl⟩ := List.mem_map.mp ho
      rfl
    have hi : ∀ o ∈ (toInsert apiE dbE).map (fun e => ExOp.ins e.2.input),
        exOpRank o = 1 := by
      intro o ho
      obtain ⟨e, _, rfl⟩ := List.mem_map.mp ho
      rfl
    have hu : ∀ o ∈ (toUpdate Equal apiE dbE).map
        (fun e => ExOp.upd e.2.2.id e.2.1.input), exOpRank o = 2 := by
      intro o ho
      obtain ⟨e, _, rfl⟩ := List.mem_map.mp ho
      rfl
    rw [EcbExchangeRatesTrace, List.pairwise_map, List.pairwise_append,
      List.pairwise_append]
    refine ⟨⟨pairwise_le_of_const_rank exOpRank _ 0 hd,
      pairwise_le_of_const_rank exOpRank _ 1 hi, ?_⟩,
      pairwise_le_of_const_rank exOpRank _ 2 hu, ?_⟩
    · intro a ha b hb
      rw [hd a ha, hi b hb]
      omega
    · intro a ha b hb
      rcases List.mem_append.mp ha with h1 | h1
      · rw [hd a h1, hu b hb]; omega
      · rw [hi a h1, hu b hb]; omega
  · refine ⟨_, _, rfl, ?_, ?_⟩
    · intro o ho i
      obtain ⟨e, _, hfe⟩ := List.mem_filterMap.mp ho
      cases hl : goMapLookup dbC e.1 with
      | none =>
          simp only [hl] at hfe
          cases hfe
          exact fun hc => CurrOp.noConfusion hc
      | some d =>
          simp only [hl] at hfe
          by_cases heq : CurrEqual e.2 d
          · rw [if_pos heq] at hfe
            cases hfe
          · rw [if_neg heq] at hfe
            cases hfe
            exact fun hc => CurrOp.noConfusion hc
    · intro o ho
      obtain ⟨e, _, hfe⟩ := List.mem_filterMap.mp ho
      cases hl : goMapLookup apiC e.1 with
      | none =>
          simp only [hl] at hfe
          cases hfe
          exact ⟨e.2.id, rfl⟩
      | some d =>
          simp only [hl] at hfe
          cases hfe

/-- Counterexample for C5 as stated: `EcbCurrencies` syncing a source map
`{AUD}` against a store map `{NZD}` inserts AUD first and deletes NZD
second — a delete is applied after an insert, so deletes do not come
first. -/
theorem ecbCurrencies_delete_not_first :
    EcbCurrenciesTrace [("AUD", ⟨0, ⟨"AUD", "Australian Dollar"⟩⟩)]
        [("NZD", ⟨7, ⟨"NZD", "New Zealand Dollar"⟩⟩)] =
      [CurrOp.ins ⟨"AUD", "Australian Dollar"⟩, CurrOp.del 7] ∧
    ¬ ((EcbCurrenciesTrace [("AUD", ⟨0, ⟨"AUD", "Australian Dollar"⟩⟩)]
        [("NZD", ⟨7, ⟨"NZD", "New Zealand Dollar"⟩⟩)]).map currOpRank).Pairwise
      (fun a b => a ≤ b) := by
  refine ⟨rfl, by decide⟩

section DiffLemmas

variable {α : Type}

lemma mem_toInsert_keys {src store : List (String × α)} {k : String} :
    k ∈ goMapKeys (toInsert src store) ↔
      k ∈ goMapKeys src ∧ goMapLookup store k = none := by
  constructor
  · intro h
    obtain ⟨e, he, rfl⟩ := List.mem_map.mp h
    obtain ⟨h1, h2⟩ := List.mem_filter.mp he
    exact ⟨List.mem_map.mpr ⟨e, h1, rfl⟩, Option.isNone_iff_eq_none.mp h2⟩
  · rintro ⟨h1, h2⟩
    obtain ⟨e, he, rfl⟩ := List.mem_map.mp h1
    refine List.mem_map.mpr ⟨e, List.mem_filter.mpr ⟨he, ?_⟩, rfl⟩
    exact Option.isNone_iff_eq_none.mpr h2

lemma mem_toUpdate_keys {equal : α → α → Bool} {src store : List (String × α)}
    {k : String} (hsrc : (goMapKeys src).Nodup) :
    k ∈ goMapKeys (toUpdate equal src store) ↔
      ∃ a d, goMapLookup src k = some a ∧ goMapLookup store k = some d ∧
        equal a d = false := by
  constructor
  · intro h
    obtain ⟨x, hx, rfl⟩ := List.mem_map.mp h
    obtain ⟨e, he, hfe⟩ := List.mem_filterMap.mp hx
    cases hl : goMapLookup store e.1 with
    | none =>
        simp only [hl] at hfe
        cases hfe
    | some d =>
        simp only [hl] at hfe
        by_cases heq : equal e.2 d
        · rw [if_pos heq] at hfe
          cases hfe
        · rw [if_neg heq] at hfe
          injection hfe with hfe'
          subst hfe'
          refine ⟨e.2, d, ?_, hl, Bool.not_eq_true _ ▸ heq⟩
          exact goMapLookup_eq_some_of_mem hsrc (by simpa using he)
  · rintro ⟨a, d, h1, h2, h3⟩
    have hmem : (k, a) ∈ src := mem_of_goMapLookup_eq_some h1
    refine List.mem_map.mpr ⟨(k, a, d), List.mem_filterMap.mpr ⟨(k, a), hmem, ?_⟩, rfl⟩
    simp only [h2, h3]
    rfl

lemma mem_unchangedKeys {equal : α → α → Bool} {src store : List (String × α)}
    {k : String} (hsrc : (goMapKeys src).Nodup) :
    k ∈ unchangedKeys equal src store ↔
      ∃ a d, goMapLookup src k = some a ∧ goMapLookup store k = some d ∧
        equal a d = true := by
  constructor
  · intro h
    obtain ⟨e, he, hfe⟩ := List.mem_filterMap.mp h
    cases hl : goMapLookup store e.1 with
    | none =>
        simp only [hl] at hfe
        cases hfe
    | some d =>
        simp only [hl] at hfe
        by_cases heq : equal e.2 d
        · rw [if_pos heq] at hfe
          injection hfe with hfe'
          subst hfe'
          exact ⟨e.2, d, goMapLookup_eq_some_of_mem hsrc (by simpa using he), hl, heq⟩
        · rw [if_neg heq] at hfe
          cases hfe
  · rintro ⟨a, d, h1, h2, h3⟩
    have hmem : (k, a) ∈ src := mem_of_goMapLookup_eq_some h1
    refine List.mem_filterMap.mpr ⟨(k, a), hmem, ?_⟩
    simp only [h2, h3]
    rfl

end DiffLemmas

/-- C6: the diff places every natural key in at most one of
insert / update / delete / unchanged, and those four classes exactly cover
the union of the two snapshots' key sets. -/
theorem diff_partitions {α : Type} (equal : α → α → Bool)
    (src store : List (String × α))
    (hsrc : (goMapKeys src).Nodup) :
    (∀ k, ¬(k ∈ goMapKeys (toInsert src store) ∧
        k ∈ goMapKeys (toUpdate equal src store))) ∧
    (∀ k, ¬(k ∈ goMapKeys (toInsert src store) ∧
        k ∈ goMapKeys (toDelete src store))) ∧
    (∀ k, ¬(k ∈ goMapKeys (toUpdate equal src store) ∧
        k ∈ goMapKeys (toDelete src store))) ∧
    (∀ k, ¬(k ∈ goMapKeys (toInsert src store) ∧
        k ∈ unchangedKeys equal src store)) ∧
    (∀ k, ¬(k ∈ goMapKeys (toUpdate equal src store) ∧
        k ∈ unchangedKeys equal src store)) ∧
    (∀ k, ¬(k ∈ goMapKeys (toDelete src store) ∧
        k ∈ unchangedKeys equal src store)) ∧
    (∀ k, (k ∈ goMapKeys src ∨ k ∈ goMapKeys store) ↔
      (k ∈ goMapKeys (toInsert src store) ∨
       k ∈ goMapKeys (toUpdate equal src store) ∨
       k ∈ goMapKeys (toDelete src store) ∨
       k ∈ unchangedKeys equal src store)) := by
  have hdel : ∀ k, k ∈ goMapKeys (toDelete src store) ↔
      k ∈ goMapKeys store ∧ goMapLookup src k = none := fun k =>
    mem_toInsert_keys
  refine ⟨?_, ?_, ?_, ?_, ?_, ?_, ?_⟩
  · rintro k ⟨h1, h2⟩
    obtain ⟨_, hn⟩ := mem_toInsert_keys.mp h1
    obtain ⟨a, d, _, hd, _⟩ := (mem_toUpdate_keys hsrc).mp h2
    rw [hn] at hd
    cases hd
  · rintro k ⟨h1, h2⟩
    obtain ⟨hk, _⟩ := mem_toInsert_keys.mp h1
    obtain ⟨_, hn⟩ := (hdel k).mp h2
    rw [goMapLookup_eq_none_iff] at hn
    exact hn hk
  · rintro k ⟨h1, h2⟩
    obtain ⟨a, d, ha, _, _⟩ := (mem_toUpdate_keys hsrc).mp h1
    obtain ⟨_, hn⟩ := (hdel k).mp h2
    rw [ha] at hn
    cases hn
  · rintro k ⟨h1, h2⟩
    obtain ⟨_, hn⟩ := mem_toInsert_keys.mp h1
    obtain ⟨a, d, _, hd, _⟩ := (mem_unchangedKeys hsrc).mp h2
    rw [hn] at hd
    cases hd
  · rintro k ⟨h1, h2⟩
    obtain ⟨a, d, ha, hd, hne⟩ := (mem_toUpdate_keys hsrc).mp h1
    obtain ⟨a', d', ha', hd', heq⟩ := (mem_unchangedKeys hsrc).mp h2
    rw [ha] at ha'
    rw [hd] at hd'
    injection ha' with h3
    injection hd' with h4
    subst h3
    subst h4
    rw [hne] at heq
    cases heq
  · rintro k ⟨h1, h2⟩
    obtain ⟨_, hn⟩ := (hdel k).mp h1
    obtain ⟨a, d, ha, _, _⟩ := (mem_unchangedKeys hsrc).mp h2
    rw [ha] at hn
    cases hn
  · intro k
    constructor
    · intro h
      by_cases hks : k ∈ goMapKeys src
      · obtain ⟨a, ha⟩ := Option.isSome_iff_exists.mp (goMapLookup_isSome_iff.mpr hks)
        cases hd : goMapLookup store k with
        | none => exact Or.inl (mem_toInsert_keys.mpr ⟨hks, hd⟩)
        | some d =>
            cases heq : equal a d with
            | false =>
                exact Or.inr (Or.inl ((mem_toUpdate_keys hsrc).mpr ⟨a, d, ha, hd, heq⟩))
            | true =>
                exact Or.inr (Or.inr (Or.inr
                  ((mem_unchangedKeys hsrc).mpr ⟨a, d, ha, hd, heq⟩)))
      · rcases h with h | h
        · exact absurd h hks
        · refine Or.inr (Or.inr (Or.inl ((hdel k).mpr ⟨h, ?_⟩)))
          exact goMapLookup_eq_none_iff.mpr hks
    · intro h
      rcases h with h | h | h | h
      · exact Or.inl (mem_toInsert_keys.mp h).1
      · obtain ⟨a, d, ha, _, _⟩ := (mem_toUpdate_keys hsrc).mp h
        exact Or.inl (goMapLookup_isSome_iff.mp (by rw [ha]; rfl))
      · exact Or.inr ((hdel k).mp h).1
      · obtain ⟨a, d, ha, _, _⟩ := (mem_unchangedKeys hsrc).mp h
        exact Or.inl (goMapLookup_isSome_iff.mp (by rw [ha]; rfl))

/-- Witness for C6 at the spec's worked example: source `{A:1.10, B:2.00}`,
store `{B:2.00, C:3.00}` with value equality on `Rat`. -/
theorem diff_partitions_witness :
    (∀ k, ¬(k ∈ goMapKeys (toInsert [("A", (11:Rat)/10), ("B", 2)] [("B", (2:Rat)), ("C", 3)]) ∧
        k ∈ goMapKeys (toUpdate (fun a b => a = b) [("A", (11:Rat)/10), ("B", 2)] [("B", (2:Rat)), ("C", 3)]))) ∧
    (∀ k, ¬(k ∈ goMapKeys (toInsert [("A", (11:Rat)/10), ("B", 2)] [("B", (2:Rat)), ("C", 3)]) ∧
        k ∈ goMapKeys (toDelete [("A", (11:Rat)/10), ("B", 2)] [("B", (2:Rat)), ("C", 3)]))) ∧
    (∀ k, ¬(k ∈ goMapKeys (toUpdate (fun a b => a = b) [("A", (11:Rat)/10), ("B", 2)] [("B", (2:Rat)), ("C", 3)]) ∧
        k ∈ goMapKeys (toDelete [("A", (11:Rat)/10), ("B", 2)] [("B", (2:Rat)), ("C", 3)]))) ∧
    (∀ k, ¬(k ∈ goMapKeys (toInsert [("A", (11:Rat)/10), ("B", 2)] [("B", (2:Rat)), ("C", 3)]) ∧
        k ∈ unchangedKeys (fun a b => a = b) [("A", (11:Rat)/10), ("B", 2)] [("B", (2:Rat)), ("C", 3)])) ∧
    (∀ k, ¬(k ∈ goMapKeys (toUpdate (fun a b => a = b) [("A", (11:Rat)/10), ("B", 2)] [("B", (2:Rat)), ("C", 3)]) ∧
        k ∈ unchangedKeys (fun a b => a = b) [("A", (11:Rat)/10), ("B", 2)] [("B", (2:Rat)), ("C", 3)])) ∧
    (∀ k, ¬(k ∈ goMapKeys (toDelete [("A", (11:Rat)/10), ("B", 2)] [("B", (2:Rat)), ("C", 3)]) ∧
        k ∈ unchangedKeys (fun a b => a = b) [("A", (11:Rat)/10), ("B", 2)] [("B", (2:Rat)), ("C", 3)])) ∧
    (∀ k, (k ∈ goMapKeys [("A", (11:Rat)/10), ("B", 2)] ∨ k ∈ goMapKeys [("B", (2:Rat)), ("C", 3)]) ↔
      (k ∈ goMapKeys (toInsert [("A", (11:Rat)/10), ("B", 2)] [("B", (2:Rat)), ("C", 3)]) ∨
       k ∈ goMapKeys (toUpdate (fun a b => a = b) [("A", (11:Rat)/10), ("B", 2)] [("B", (2:Rat)), ("C", 3)]) ∨
       k ∈ goMapKeys (toDelete [("A", (11:Rat)/10), ("B", 2)] [("B", (2:Rat)), ("C", 3)]) ∨
       k ∈ unchangedKeys (fun a b => a = b) [("A", (11:Rat)/10), ("B", 2)] [("B", (2:Rat)), ("C", 3)])) :=
  diff_partitions (fun a b => a = b) [("A", (11:Rat)/10), ("B", 2)]
    [("B", (2:Rat)), ("C", 3)] (by decide)

/-- C7: for any symmetric equality predicate, swapping the source and store
snapshots turns `toInsert` into `toDelete` and conversely (they are the very
same filter of the respective other snapshot) and leaves `toUpdate`'s key
set unchanged; the provided predicates — `ecbexchangerate.Store.Equal`
(rate rounded to 4 decimals) and `ecbcurrency.Store.Equal` (name) — are
symmetric. -/
theorem diff_swap_symmetric {α : Type} (equal : α → α → Bool)
    (hsym : ∀ a b, equal a b = equal b a)
    (src store : List (String × α))
    (hsrc : (goMapKeys src).Nodup) (hstore : (goMapKeys store).Nodup) :
    (toInsert store src = toDelete src store ∧
     toDelete store src = toInsert src store ∧
     ∀ k, k ∈ goMapKeys (toUpdate equal store src) ↔
       k ∈ goMapKeys (toUpdate equal src store)) ∧
    (∀ a b : ExRateModel, Equal a b = Equal b a) ∧
    (∀ a b : CurrModel, CurrEqual a b = CurrEqual b a) := by
  refine ⟨⟨rfl, rfl, ?_⟩, ?_, ?_⟩
  · intro k
    rw [mem_toUpdate_keys hstore, mem_toUpdate_keys hsrc]
    constructor
    · rintro ⟨a, d, h1, h2, h3⟩
      exact ⟨d, a, h2, h1, by rw [hsym d a]; exact h3⟩
    · rintro ⟨a, d, h1, h2, h3⟩
      exact ⟨d, a, h2, h1, by rw [hsym d a]; exact h3⟩
  · intro a b
    simp only [Equal]
    exact decide_eq_decide.mpr eq_comm
  · intro a b
    simp only [CurrEqual]
    exact decide_eq_decide.mpr eq_comm

/-- A one-entry source snapshot for the C7 witness. -/
def currSrcW : List (String × CurrModel) := [("AUD", ⟨1, ⟨"AUD", "A"⟩⟩)]

/-- A one-entry store snapshot for the C7 witness. -/
def currStoreW : List (String × CurrModel) := [("NZD", ⟨2, ⟨"NZD", "N"⟩⟩)]

/-- Witness for C7 with the currency predicate over one-entry snapshots. -/
theorem diff_swap_symmetric_witness :
    (toInsert currStoreW currSrcW = toDelete currSrcW currStoreW ∧
     toDelete currStoreW currSrcW = toInsert currSrcW currStoreW ∧
     ∀ k, k ∈ goMapKeys (toUpdate CurrEqual currStoreW currSrcW) ↔
       k ∈ goMapKeys (toUpdate CurrEqual currSrcW currStoreW)) ∧
    (∀ a b : ExRateModel, Equal a b = Equal b a) ∧
    (∀ a b : CurrModel, CurrEqual a b = CurrEqual b a) :=
  diff_swap_symmetric CurrEqual
    (fun a b => by simp only [CurrEqual]; exact decide_eq_decide.mpr eq_comm)
    currSrcW currStoreW (by decide) (by decide)

/-- Modelled from the spec: the net effect of a successful reconciliation
run on the store snapshot.  The persistence mutators and the store snapshot
provider are external collaborators (spec §6) whose implementations are not
part of this repository: applying the computed diff inserts each `toInsert`
record with a store-assigned fresh identity, rewrites each `toUpdate`
record's domain fields keeping its identity, deletes each `toDelete` record,
and re-selecting then yields exactly the source's keys (§4.1: identical key
normalisation) bound to the resulting records. -/
def applyDiffToStore (api store : List (String × ExRateModel))
    (newId : String → Int) : List (String × ExRateModel) :=
  api.map (fun e => (e.1,
    match goMapLookup store e.1 with
    | none => ⟨newId e.1, e.2.input⟩
    | some d => if Equal e.2 d then d else ⟨d.id, e.2.input⟩))

/-- C8: diffing two identical snapshots yields empty insert/update/delete
sets, and after a successful reconciliation run the store snapshot diffs
empty against the unchanged source snapshot (second run is a no-op). -/
theorem reconcile_idempotent (api store : List (String × ExRateModel))
    (hapi : (goMapKeys api).Nodup) (newId : String → Int) :
    (toInsert api api = [] ∧ toUpdate Equal api api = [] ∧
      toDelete api api = []) ∧
    (toInsert api (applyDiffToStore api store newId) = [] ∧
     toUpdate Equal api (applyDiffToStore api store newId) = [] ∧
     toDelete api (applyDiffToStore api store newId) = []) := by
  have hself : ∀ e ∈ api, goMapLookup api e.1 = some e.2 := by
    intro e he
    exact goMapLookup_eq_some_of_mem hapi (by simpa using he)
  have hrefl : ∀ a : ExRateModel, Equal a a = true := by
    intro a
    simp [Equal]
  have happlykeys : goMapKeys (applyDiffToStore api store newId) = goMapKeys api := by
    simp only [applyDiffToStore, goMapKeys, List.map_map]
    rfl
  have happlynd : (goMapKeys (applyDiffToStore api store newId)).Nodup := by
    rw [happlykeys]; exact hapi
  have happly : ∀ e ∈ api,
      goMapLookup (applyDiffToStore api store newId) e.1 = some
        (match goMapLookup store e.1 with
         | none => (⟨newId e.1, e.2.input⟩ : ExRateModel)
         | some d => if Equal e.2 d then d else ⟨d.id, e.2.input⟩) := by
    intro e he
    exact goMapLookup_eq_some_of_mem happlynd
      (List.mem_map.mpr ⟨e, he, rfl⟩)
  refine ⟨⟨?_, ?_, ?_⟩, ?_, ?_, ?_⟩
  · rw [toInsert, List.filter_eq_nil_iff]
    intro e he
    rw [hself e he]
    simp
  · rw [toUpdate, List.filterMap_eq_nil_iff]
    intro e he
    rw [hself e he]
    simp only [hrefl e.2, if_pos]
  · rw [toDelete, List.filter_eq_nil_iff]
    intro e he
    rw [hself e he]
    simp
  · rw [toInsert, List.filter_eq_nil_iff]
    intro e he
    rw [happly e he]
    simp
  · rw [toUpdate, List.filterMap_eq_nil_iff]
    intro e he
    rw [happly e he]
    cases hd : goMapLookup store e.1 with
    | none => simp [Equal]
    | some d =>
        by_cases heq : Equal e.2 d
        · simp [heq]
        · simp only [Bool.not_eq_true] at heq
          simp [heq, Equal]
          rw [if_neg (by simpa [Equal] using heq)]
  · rw [toDelete, List.filter_eq_nil_iff]
    intro e he
    obtain ⟨x, hx, rfl⟩ := List.mem_map.mp he
    simp only []
    rw [hself x hx]
    simp

/-- Witness for C8: source `{B: rate 2.05}` (id 0), store `{B: rate 2.00}`
(id 42) — the update path — with fresh ids assigned constantly. -/
theorem reconcile_idempotent_witness :
    (toInsert [("B", (⟨0, ⟨0, "D", 1, 41/20, 2⟩⟩ : ExRateModel))]
        [("B", (⟨0, ⟨0, "D", 1, 41/20, 2⟩⟩ : ExRateModel))] = [] ∧
     toUpdate Equal [("B", (⟨0, ⟨0, "D", 1, 41/20, 2⟩⟩ : ExRateModel))]
        [("B", (⟨0, ⟨0, "D", 1, 41/20, 2⟩⟩ : ExRateModel))] = [] ∧
     toDelete [("B", (⟨0, ⟨0, "D", 1, 41/20, 2⟩⟩ : ExRateModel))]
        [("B", (⟨0, ⟨0, "D", 1, 41/20, 2⟩⟩ : ExRateModel))] = []) ∧
    (toInsert [("B", (⟨0, ⟨0, "D", 1, 41/20, 2⟩⟩ : ExRateModel))]
        (applyDiffToStore [("B", (⟨0, ⟨0, "D", 1, 41/20, 2⟩⟩ : ExRateModel))]
          [("B", (⟨42, ⟨0, "D", 1, 2, 2⟩⟩ : ExRateModel))] (fun _ => 0)) = [] ∧
     toUpdate Equal [("B", (⟨0, ⟨0, "D", 1, 41/20, 2⟩⟩ : ExRateModel))]
        (applyDiffToStore [("B", (⟨0, ⟨0, "D", 1, 41/20, 2⟩⟩ : ExRateModel))]
          [("B", (⟨42, ⟨0, "D", 1, 2, 2⟩⟩ : ExRateModel))] (fun _ => 0)) = [] ∧
     toDelete [("B", (⟨0, ⟨0, "D", 1, 41/20, 2⟩⟩ : ExRateModel))]
        (applyDiffToStore [("B", (⟨0, ⟨0, "D", 1, 41/20, 2⟩⟩ : ExRateModel))]
          [("B", (⟨42, ⟨0, "D", 1, 2, 2⟩⟩ : ExRateModel))] (fun _ => 0)) = []) :=
  reconcile_idempotent [("B", ⟨0, ⟨0, "D", 1, 41/20, 2⟩⟩)]
    [("B", ⟨42, ⟨0, "D", 1, 2, 2⟩⟩)] (by decide) (fun _ => 0)

end Connectors
